import Mathlib

/-!
Verification of the optable-pair-cli core against its specification.

The Go source is shallowly embedded: the batched streaming transform engine
(pkg/pair, functions readPAIRIDs, runPAIROperation, operate), the Matcher
(NewMatcher, Matcher.Match), the protocol orchestrator (pkg/cmd/cli/run.go,
actionFromStates, RunCmd.Run), the coordination client wait loop
(pkg/internal/client.go, ReadyForMatch, waitForState), the bucket listing
(pkg/bucket/bucket.go, newObjectReadWriteCloser) and the cleanroom token
validation (ParseCleanroomToken, CleanroomToken.Valid).

Concurrency is sequentialized: in the Go engine each batch is taken from the
channel by exactly one worker and every write happens under a single mutex,
so an error-free run is observationally a sequential fold over the emitted
batches.  External capabilities (the commutative-encryption primitives, the
random in-place shuffle, the remote coordination service, the JWT library)
are parameters of the model: fallible crypto primitives are functions into
Option, the shuffle is an arbitrary length-preserving function supplied by
the environment, remote state is an observation function of time.
-/

namespace PairCli

/-- batchSize from pkg/pair: records per batch handed to one worker. -/
def batchSize : Nat := 1024

/-- minimumIDCount from pkg/pair: minimum number of records an operation
must process to be considered a secure PAIR match. -/
def minimumIDCount : Nat := 1000

/-- One line of the CSV input stream as seen by csv.Reader.Read: either a
single-column record or a malformed line (wrong column count), which
csv.Read reports as an error. -/
inductive Line
  | row (id : String)
  | malformed
deriving DecidableEq, Repr

/-- Terminal condition recorded by the background reader goroutine in
pairIDReader.err: clean end of stream (io.EOF) or a parse error. -/
inductive Terminal
  | eof
  | parseError
deriving DecidableEq, Repr

/-- Result of the background reader readPAIRIDs: the batches sent on the
channel, the final value of the atomic read counter, and the terminal
condition stored in the err field. -/
structure ReaderResult where
  batches : List (List String)
  read : Nat
  terminal : Terminal
deriving DecidableEq, Repr

/-- The loop body of readPAIRIDs (pkg/pair).  The accumulator ids holds the
records of the batch under construction.  On io.EOF a non-empty partial
batch is sent and counted; on a parse error the loop returns at once,
dropping the partial batch; a batch is sent and counted whenever it reaches
batchSize records. -/
def readLoop : List Line → List String → List (List String) × Nat × Terminal
  | [], ids =>
    if ids.length > 0 then ([ids], ids.length, Terminal.eof)
    else ([], 0, Terminal.eof)
  | Line.malformed :: _, _ => ([], 0, Terminal.parseError)
  | Line.row id :: rest, ids =>
    let ids2 := ids ++ [id]
    if ids2.length = batchSize then
      let r := readLoop rest []
      (ids2 :: r.1, batchSize + r.2.1, r.2.2)
    else
      readLoop rest ids2

/-- readPAIRIDs from pkg/pair: the background producer converting the input
stream into batches, starting from an empty accumulator. -/
def readPAIRIDs (input : List Line) : ReaderResult :=
  let r := readLoop input []
  ⟨r.1, r.2.1, r.2.2⟩

/-- The records of an input stream up to (excluding) the first malformed
line; on a clean stream this is every record. -/
def recordsOf : List Line → List String
  | [] => []
  | Line.row id :: rest => id :: recordsOf rest
  | Line.malformed :: _ => []

/-- The three PAIR operations of the engine (type Operation in pkg/pair). -/
inductive Operation
  | hashEncrypt
  | reEncrypt
  | decrypt
deriving DecidableEq, Repr

/-- The external commutative-encryption capability produced by
keys.NewPAIRPrivateKey: three fallible single-record primitives. -/
structure PrivateKey where
  encrypt : String → Option String
  reEncrypt : String → Option String
  decrypt : String → Option String

/-- pairOps from pkg/pair: the per-record transform together with the flag
telling operate to shuffle the batch first. -/
structure PairOps where
  doFn : String → Option String
  shuffle : Bool

/-- The switch in runPAIROperation that fills the pairOps struct: only the
ReEncrypt arm sets shuffle to true; the other arms leave the zero value
false. -/
def mkPairOps (op : Operation) (pk : PrivateKey) : PairOps :=
  match op with
  | Operation.hashEncrypt => ⟨pk.encrypt, false⟩
  | Operation.reEncrypt => ⟨pk.reEncrypt, true⟩
  | Operation.decrypt => ⟨pk.decrypt, false⟩

/-- The per-record loop of operate: apply the transform to each record in
order, aborting at the first error, collecting transformed records in
order. -/
def transformAll (doFn : String → Option String) : List String → Option (List String)
  | [] => some []
  | id :: rest =>
    match doFn id with
    | none => none
    | some pairID =>
      match transformAll doFn rest with
      | none => none
      | some out => some (pairID :: out)

/-- operate from pkg/pair, for one batch: shuffle in place when the
operation asks for it (the shuffle instance shuf is supplied by the
environment, modelling pair.Shuffle), then transform every record. -/
def operate (shuf : List String → List String) (op : PairOps) (ids : List String) :
    Option (List String) :=
  let ids2 := if op.shuffle then shuf ids else ids
  transformAll op.doFn ids2

/-- Sequentialized batch processing of the worker pool: batches are
consumed in emission order, the first transform error aborts; returns the
final written counter and whether every batch succeeded. -/
def processAll (shuf : List String → List String) (op : PairOps) :
    List (List String) → Nat × Bool
  | [] => (0, true)
  | b :: bs =>
    match operate shuf op b with
    | none => (0, false)
    | some recs =>
      let r := processAll shuf op bs
      (recs.length + r.1, r.2)

/-- The error taxonomy of a run visible to callers of the engine and the
Matcher: the dedicated below-threshold policy error ErrInputBelowThreshold,
a cryptographic transform failure, or an input parse failure. -/
inductive PairError
  | belowThreshold
  | transformError
  | parseError
deriving DecidableEq, Repr

/-- Observable outcome of runPAIROperation: its return value (none for
success) and the final values of the read and written counters. -/
structure EngineOutcome where
  result : Option PairError
  read : Nat
  written : Nat
deriving DecidableEq, Repr

/-- runPAIROperation from pkg/pair, sequentialized: read everything into
batches, process every batch until the first error, then, only when every
batch succeeded and the reader saw clean EOF, compare the read counter to
minimumIDCount and report ErrInputBelowThreshold when it is under it. -/
def runEngine (shuf : List String → List String) (pk : PrivateKey) (op : Operation)
    (input : List Line) : EngineOutcome :=
  let r := readPAIRIDs input
  let ops := mkPairOps op pk
  let pr := processAll shuf ops r.batches
  if pr.2 = false then ⟨some PairError.transformError, r.read, pr.1⟩
  else
    match r.terminal with
    | Terminal.parseError => ⟨some PairError.parseError, r.read, pr.1⟩
    | Terminal.eof =>
      if r.read < minimumIDCount then ⟨some PairError.belowThreshold, r.read, pr.1⟩
      else ⟨none, r.read, pr.1⟩

/-- The advertiser lookup set built by NewMatcher (pkg/pair): every
advertiser stream is read into its own map, the maps are then merged; the
result is the set of all advertiser records. -/
def advHashMap (adv : List (List String)) : Finset String :=
  adv.flatten.toFinset

/-- The advRead counter of NewMatcher: incremented once per advertiser
record read, before deduplication by the map. -/
def advReadCount (adv : List (List String)) : Nat :=
  adv.flatten.length

/-- The inner loop of the Matcher.Match producer goroutine over one
publisher batch: a record found in the lookup set is removed from the set
and forwarded on the intersected channel; records not in the set are
dropped. -/
def matchProducerBatch (hashMap : Finset String) :
    List String → List String × Finset String
  | [] => ([], hashMap)
  | id :: rest =>
    if id ∈ hashMap then
      let r := matchProducerBatch (hashMap.erase id) rest
      (id :: r.1, r.2)
    else
      matchProducerBatch hashMap rest

/-- The Matcher.Match producer goroutine: iterate the publisher batches in
emission order, threading the shrinking lookup set through; returns the
sequence of matched records forwarded to the consumers and the final set. -/
def matchProducer (hashMap : Finset String) :
    List (List String) → List String × Finset String
  | [] => ([], hashMap)
  | b :: bs =>
    let r1 := matchProducerBatch hashMap b
    let r2 := matchProducer r1.2 bs
    (r1.1 ++ r2.1, r2.2)

/-- The sequence of matched (still triple-encrypted) records a Matcher run
forwards to its consumer workers, for given advertiser streams and
publisher input. -/
def matcherMatched (adv : List (List String)) (pubInput : List Line) : List String :=
  (matchProducer (advHashMap adv) (readPAIRIDs pubInput).batches).1

/-- Number of records the consumer workers write before the first decrypt
failure (each consumer decrypts a matched record and writes it; the first
error aborts the run). -/
def successCount (dec : String → Option String) : List String → Nat
  | [] => 0
  | id :: rest =>
    match dec id with
    | none => 0
    | some _ => 1 + successCount dec rest

/-- Observable outcome of Matcher.Match: its return value (none for
success), the advRead counter, the publisher read counter and the written
counter. -/
structure MatcherOutcome where
  result : Option PairError
  advRead : Nat
  pubRead : Nat
  written : Nat
deriving DecidableEq, Repr

/-- Matcher.Match from pkg/pair, sequentialized: the producer intersects
the publisher stream against the advertiser set with consume-once
semantics, the consumers decrypt every matched record (first decrypt error
aborts), then the reader terminal condition is inspected; there is no
minimum-input-size check anywhere in Match. -/
def matcherMatch (dec : String → Option String) (adv : List (List String))
    (pubInput : List Line) : MatcherOutcome :=
  let r := readPAIRIDs pubInput
  let matched := (matchProducer (advHashMap adv) r.batches).1
  match transformAll dec matched with
  | none => ⟨some PairError.transformError, advReadCount adv, r.read, successCount dec matched⟩
  | some out =>
    match r.terminal with
    | Terminal.parseError => ⟨some PairError.parseError, advReadCount adv, r.read, out.length⟩
    | Terminal.eof => ⟨none, advReadCount adv, r.read, out.length⟩

/-- Participant states of the cleanroom protocol as listed by the
specification; every value outside the six named states falls into the
default branch of actionFromStates exactly as these do. -/
inductive ParticipantState
  | invited
  | dataContributed
  | dataTransforming
  | dataTransformed
  | running
  | succeeded
deriving DecidableEq, Repr, Fintype

/-- The action struct of pkg/cmd/cli/run.go: which of the three protocol
steps the orchestrator should start from. -/
structure OrchestratorAction where
  contributeAdvertiserData : Bool
  reEncryptPublisherData : Bool
  matchData : Bool
deriving DecidableEq, Repr

/-- actionFromStates from pkg/cmd/cli/run.go: classify the observed pair of
participant states.  The Go switch on the publisher state falls through
from DATA_TRANSFORMING to DATA_TRANSFORMED and from RUNNING to SUCCEEDED;
every unlisted combination returns the zero action. -/
def actionFromStates (publisherState advertiserState : ParticipantState) :
    OrchestratorAction :=
  match publisherState with
  | ParticipantState.dataContributed =>
    if advertiserState = ParticipantState.invited then ⟨true, false, false⟩
    else if advertiserState = ParticipantState.dataContributed then ⟨false, true, false⟩
    else if advertiserState = ParticipantState.dataTransformed then ⟨false, false, true⟩
    else ⟨false, false, false⟩
  | ParticipantState.dataTransforming | ParticipantState.dataTransformed =>
    if advertiserState = ParticipantState.dataContributed then ⟨false, true, false⟩
    else if advertiserState = ParticipantState.dataTransformed then ⟨false, false, true⟩
    else ⟨false, false, false⟩
  | ParticipantState.running | ParticipantState.succeeded =>
    if advertiserState = ParticipantState.dataTransformed then ⟨false, false, true⟩
    else ⟨false, false, false⟩
  | _ => ⟨false, false, false⟩

/-- What RunCmd.Run does with the classified action: start from step 1, 2
or 3, or fail with the unexpected-state-combination error. -/
inductive NextAction
  | stepOne
  | stepTwo
  | stepThree
  | failUnexpected
deriving DecidableEq, Repr

/-- The dispatch sequence of RunCmd.Run over the action flags, in source
order. -/
def runDispatch (a : OrchestratorAction) : NextAction :=
  if a.contributeAdvertiserData then NextAction.stepOne
  else if a.reEncryptPublisherData then NextAction.stepTwo
  else if a.matchData then NextAction.stepThree
  else NextAction.failUnexpected

/-- How many of the three action flags are set. -/
def selectedCount (a : OrchestratorAction) : Nat :=
  (if a.contributeAdvertiserData then 1 else 0)
    + (if a.reEncryptPublisherData then 1 else 0)
    + (if a.matchData then 1 else 0)

/-- The next action the claim C6 table prescribes for each observed state
pair, written from the words of the specification for comparison with the
code. -/
def specNextAction (publisherState advertiserState : ParticipantState) : NextAction :=
  match publisherState, advertiserState with
  | ParticipantState.dataContributed, ParticipantState.invited => NextAction.stepOne
  | ParticipantState.dataContributed, ParticipantState.dataContributed => NextAction.stepTwo
  | ParticipantState.dataTransforming, ParticipantState.dataContributed => NextAction.stepTwo
  | ParticipantState.dataTransformed, ParticipantState.dataContributed => NextAction.stepTwo
  | ParticipantState.dataContributed, ParticipantState.dataTransformed => NextAction.stepThree
  | ParticipantState.dataTransforming, ParticipantState.dataTransformed => NextAction.stepThree
  | ParticipantState.dataTransformed, ParticipantState.dataTransformed => NextAction.stepThree
  | ParticipantState.running, ParticipantState.dataTransformed => NextAction.stepThree
  | ParticipantState.succeeded, ParticipantState.dataTransformed => NextAction.stepThree
  | _, _ => NextAction.failUnexpected

/-- waitTime from pkg/internal/client.go expressed in seconds: the ceiling
of the cross-party wait. -/
def waitCeilingSeconds : Nat := 3600

/-- The ticker period of waitForState in seconds. -/
def pollIntervalSeconds : Nat := 1

/-- The publisher states ReadyForMatch waits for: at or beyond
DataTransformed. -/
def readyForMatchTargets : List ParticipantState :=
  [ParticipantState.dataTransformed, ParticipantState.running, ParticipantState.succeeded]

/-- Result of the wait loop: the target state was observed, or the one-hour
timer fired first. -/
inductive WaitResult
  | ok
  | timeout
deriving DecidableEq, Repr

/-- The select loop of waitForState: at each ticker tick poll the remote
publisher state (obs t is the state observed at second t); return success
at the first poll that sees a target state; the timer bounds the number of
polls.  The fuel argument is the number of ticks remaining before the
timer fires; the second argument is the elapsed time in seconds. -/
def waitLoop (obs : Nat → ParticipantState) (targets : List ParticipantState) :
    Nat → Nat → WaitResult × Nat
  | 0, t => (WaitResult.timeout, t)
  | Nat.succ fuel, t =>
    let t2 := t + pollIntervalSeconds
    if obs t2 ∈ targets then (WaitResult.ok, t2)
    else waitLoop obs targets fuel t2

/-- waitForState from pkg/internal/client.go: poll every second, for at
most one hour of ticks; returns the result and the elapsed seconds. -/
def waitForState (obs : Nat → ParticipantState) (targets : List ParticipantState) :
    WaitResult × Nat :=
  waitLoop obs targets (waitCeilingSeconds / pollIntervalSeconds) 0

/-- ReadyForMatch from pkg/internal/client.go: wait until the publisher is
at or beyond DataTransformed. -/
def readyForMatch (obs : Nat → ParticipantState) : WaitResult × Nat :=
  waitForState obs readyForMatchTargets

/-- CompletedFile from pkg/bucket/bucket.go: the name of the completion
marker object. -/
def CompletedFile : String := ".Completed"

/-- A listed storage object: its name and size, the two attributes
newObjectReadWriteCloser inspects. -/
structure BucketObject where
  name : String
  size : Nat
deriving DecidableEq, Repr

/-- strings.HasSuffix on Go strings, modelled on the character lists of the
two strings. -/
def goHasSuffix (s suffix : String) : Bool :=
  List.isSuffixOf suffix.data s.data

/-- The skip condition of the listing loop in newObjectReadWriteCloser:
completion markers, directory-like names and zero-byte objects are
skipped. -/
def shouldSkip (o : BucketObject) : Bool :=
  goHasSuffix o.name CompletedFile || goHasSuffix o.name "/" || o.size == 0

/-- The listing loop of newObjectReadWriteCloser (pkg/bucket/bucket.go):
iterate the listed objects in order, skipping markers, directories and
empty objects, and open a reader for every other object. -/
def listOpenedReaders : List BucketObject → List BucketObject
  | [] => []
  | o :: rest =>
    if shouldSkip o then listOpenedReaders rest
    else o :: listOpenedReaders rest

/-- The claims carried by a cleanroom token (type CleanroomToken in
pkg/internal/client.go); the expiration is the exp claim truncated to an
integer, as int64(c.Expiration) does. -/
structure TokenClaims where
  cleanroom : String
  expiration : Int
  issuerHost : String
  hashSalt : String
deriving DecidableEq, Repr

/-- CleanroomToken.Valid, parameterized by the current Unix time: the four
checks in source order; none returns success. -/
def tokenValid (now : Int) (c : TokenClaims) : Option String :=
  if c.cleanroom = "" then some "cleanroom is empty"
  else if now > c.expiration then some "token is expired"
  else if c.issuerHost = "" then some "issuer host is empty"
  else if c.hashSalt = "" then some "hash salt is empty"
  else none

/-- An operator-supplied encoded JWT as the jwt library sees it: whether it
is syntactically well formed, whether its signature would verify, and the
claims it carries. -/
structure EncodedToken where
  wellFormed : Bool
  signatureValid : Bool
  claims : TokenClaims

/-- ParseCleanroomToken from pkg/internal/client.go: parser.ParseUnverified
decodes the claims of any well-formed token and never checks the
signature. -/
def parseCleanroomToken (t : EncodedToken) : Option TokenClaims :=
  if t.wellFormed then some t.claims else none

/-- The same encoded token with the signature validity bit replaced, used
to state that parsing is independent of the signature. -/
def setSignatureValid (t : EncodedToken) (b : Bool) : EncodedToken :=
  ⟨t.wellFormed, b, t.claims⟩

/-- The identity shuffle, one admissible instance of the in-place
pair.Shuffle permutation, used to instantiate theorems at concrete
inputs. -/
def idShuffle : List String → List String :=
  fun ids => ids

/-- A total private key whose three primitives always succeed, used to
instantiate theorems at concrete inputs. -/
def totalKey : PrivateKey :=
  ⟨fun s => some s, fun s => some s, fun s => some s⟩

/-- The read counter equals the total length of the emitted batches:
readPAIRIDs counts exactly the records it sends on the channel. -/
theorem readLoop_read_eq_flatten (input : List Line) :
    ∀ ids : List String, (readLoop input ids).2.1 = (readLoop input ids).1.flatten.length := by
  induction input with
  | nil =>
    intro ids
    by_cases h : ids.length > 0
    · simp [readLoop, h]
    · simp [readLoop, h]
  | cons l rest ih =>
    intro ids
    cases l with
    | malformed => simp [readLoop]
    | row id =>
      by_cases h : (ids ++ [id]).length = batchSize
      · simp only [readLoop, h, if_pos, List.flatten_cons, List.length_append]
        rw [ih []]
      · simp only [readLoop, h, if_neg, not_false_iff]
        exact ih (ids ++ [id])

/-- On a stream with no malformed line the reader terminates with clean
EOF, emits every record (the final partial batch included) and emits no
empty batch. -/
theorem readLoop_clean (input : List Line) (h : ∀ l ∈ input, l ≠ Line.malformed) :
    ∀ ids : List String,
      (readLoop input ids).2.2 = Terminal.eof
      ∧ (readLoop input ids).1.flatten = ids ++ recordsOf input
      ∧ ∀ b ∈ (readLoop input ids).1, b ≠ [] := by
  induction input with
  | nil =>
    intro ids
    by_cases hl : ids.length > 0
    · refine ⟨by simp [readLoop, hl], by simp [readLoop, hl, recordsOf], ?_⟩
      intro b hb
      simp only [readLoop, hl, if_pos, List.mem_singleton] at hb
      subst hb
      intro hnil
      rw [hnil] at hl
      simp at hl
    · have hids : ids = [] := List.length_eq_zero.mp (by omega)
      subst hids
      simp [readLoop, recordsOf]
  | cons l rest ih =>
    intro ids
    cases l with
    | malformed =>
      exact absurd rfl (h Line.malformed (by simp))
    | row id =>
      have hrest : ∀ l ∈ rest, l ≠ Line.malformed := by
        intro l hl
        exact h l (List.mem_cons_of_mem _ hl)
      by_cases hfull : (ids ++ [id]).length = batchSize
      · have hr := ih hrest []
        refine ⟨?_, ?_, ?_⟩
        · simp only [readLoop, hfull, if_pos]
          exact hr.1
        · simp only [readLoop, hfull, if_pos, List.flatten_cons, recordsOf]
          rw [hr.2.1]
          simp
        · intro b hb
          simp only [readLoop, hfull, if_pos, List.mem_cons] at hb
          cases hb with
          | inl hb =>
            subst hb
            simp
          | inr hb => exact hr.2.2 b hb
      · have hr := ih hrest (ids ++ [id])
        refine ⟨?_, ?_, ?_⟩
        · simp only [readLoop, hfull, if_neg, not_false_iff]
          exact hr.1
        · simp only [readLoop, hfull, if_neg, not_false_iff, recordsOf]
          rw [hr.2.1]
          simp
        · intro b hb
          simp only [readLoop, hfull, if_neg, not_false_iff] at hb
          exact hr.2.2 b hb

/-- When a malformed line follows a clean prefix, the reader records a
parse error, every emitted batch is a full batch, and the partially
accumulated batch is dropped: the emitted records plus an under-full
leftover make up exactly the records before the malformed line. -/
theorem readLoop_bad (pre : List Line) (hpre : ∀ l ∈ pre, l ≠ Line.malformed)
    (rest : List Line) :
    ∀ ids : List String, ids.length < batchSize →
      (readLoop (pre ++ Line.malformed :: rest) ids).2.2 = Terminal.parseError
      ∧ (∀ b ∈ (readLoop (pre ++ Line.malformed :: rest) ids).1, b.length = batchSize)
      ∧ ∃ leftover : List String, leftover.length < batchSize ∧
          (readLoop (pre ++ Line.malformed :: rest) ids).1.flatten ++ leftover
            = ids ++ recordsOf pre := by
  induction pre with
  | nil =>
    intro ids hlen
    refine ⟨by simp [readLoop], by simp [readLoop], ids, hlen, by simp [readLoop, recordsOf]⟩
  | cons l pre2 ih =>
    intro ids hlen
    cases l with
    | malformed =>
      exact absurd rfl (hpre Line.malformed (by simp))
    | row id =>
      have hpre2 : ∀ l ∈ pre2, l ≠ Line.malformed := by
        intro l hl
        exact hpre l (List.mem_cons_of_mem _ hl)
      by_cases hfull : (ids ++ [id]).length = batchSize
      · have hr := ih hpre2 [] (by simp [batchSize])
        refine ⟨?_, ?_, ?_⟩
        · simp only [List.cons_append, readLoop, hfull, if_pos]
          exact hr.1
        · intro b hb
          simp only [List.cons_append, readLoop, hfull, if_pos, List.mem_cons] at hb
          cases hb with
          | inl hb =>
            subst hb
            exact hfull
          | inr hb => exact hr.2.1 b hb
        · obtain ⟨leftover, hlt, heq⟩ := hr.2.2
          refine ⟨leftover, hlt, ?_⟩
          simp only [List.cons_append, readLoop, hfull, if_pos, List.flatten_cons, recordsOf,
            List.append_eq]
          simp only [List.nil_append] at heq
          rw [List.append_assoc, heq]
          simp
      · have hlen2 : (ids ++ [id]).length < batchSize := by
          simp only [List.length_append, List.length_singleton]
          simp only [List.length_append, List.length_singleton] at hfull
          omega
        have hr := ih hpre2 (ids ++ [id]) hlen2
        refine ⟨?_, ?_, ?_⟩
        · simp only [List.cons_append, readLoop, hfull, if_neg, not_false_iff]
          exact hr.1
        · intro b hb
          simp only [List.cons_append, readLoop, hfull, if_neg, not_false_iff] at hb
          exact hr.2.1 b hb
        · obtain ⟨leftover, hlt, heq⟩ := hr.2.2
          refine ⟨leftover, hlt, ?_⟩
          simp only [List.cons_append, readLoop, hfull, if_neg, not_false_iff, recordsOf,
            List.append_eq]
          rw [heq]
          simp

/-- C8: the Record Stream Reader terminates in exactly one of two ways: on
clean end-of-stream it emits any non-empty partial final batch, closes the
batch queue and records clean EOF as the terminal condition; on a
malformed input line it aborts at once, records the parse error as the
terminal condition and does not emit the partially accumulated batch (every
batch it did emit is a full one). -/
theorem reader_termination (input : List Line) :
    ((∀ l ∈ input, l ≠ Line.malformed) →
      (readPAIRIDs input).terminal = Terminal.eof
      ∧ (readPAIRIDs input).batches.flatten = recordsOf input
      ∧ (readPAIRIDs input).read = (recordsOf input).length
      ∧ ∀ b ∈ (readPAIRIDs input).batches, b ≠ [])
    ∧ ∀ pre rest, input = pre ++ Line.malformed :: rest →
        (∀ l ∈ pre, l ≠ Line.malformed) →
        (readPAIRIDs input).terminal = Terminal.parseError
        ∧ (∀ b ∈ (readPAIRIDs input).batches, b.length = batchSize)
        ∧ ∃ leftover : List String, leftover.length < batchSize ∧
            (readPAIRIDs input).batches.flatten ++ leftover = recordsOf pre := by
  constructor
  · intro hclean
    have h := readLoop_clean input hclean []
    have hr := readLoop_read_eq_flatten input []
    refine ⟨h.1, by simpa using h.2.1, ?_, h.2.2⟩
    show (readLoop input []).2.1 = (recordsOf input).length
    rw [hr, h.2.1]
    simp
  · intro pre rest hinput hpre
    subst hinput
    have h := readLoop_bad pre hpre rest [] (by simp [batchSize])
    refine ⟨h.1, h.2.1, ?_⟩
    obtain ⟨leftover, hlt, heq⟩ := h.2.2
    exact ⟨leftover, hlt, by simpa using heq⟩

/-- Witness for C8 at a concrete two-line input whose second line is
malformed: the run aborts with a parse error and emits nothing, and the
clean one-line input ends with EOF. -/
theorem reader_termination_witness :
    (readPAIRIDs [Line.row "a", Line.malformed]).terminal = Terminal.parseError
    ∧ (readPAIRIDs [Line.row "b"]).terminal = Terminal.eof := by
  constructor
  · exact ((reader_termination [Line.row "a", Line.malformed]).2
      [Line.row "a"] [] rfl (by decide)).1
  · exact ((reader_termination [Line.row "b"]).1 (by decide)).1

/-- A successful per-record transform pass writes exactly one output
record per input record. -/
theorem transformAll_length (doFn : String → Option String) :
    ∀ xs out, transformAll doFn xs = some out → out.length = xs.length := by
  intro xs
  induction xs with
  | nil =>
    intro out h
    simp only [transformAll, Option.some.injEq] at h
    subst h
    rfl
  | cons x rest ih =>
    intro out h
    simp only [transformAll] at h
    cases hx : doFn x with
    | none => rw [hx] at h; exact absurd h (by simp)
    | some r =>
      rw [hx] at h
      cases hr : transformAll doFn rest with
      | none => rw [hr] at h; exact absurd h (by simp)
      | some rs =>
        rw [hr] at h
        simp only [Option.some.injEq] at h
        subst h
        simp [ih rs hr]

/-- Every record of a successful transform pass output comes from some
input record. -/
theorem transformAll_mem (doFn : String → Option String) :
    ∀ xs out, transformAll doFn xs = some out →
      ∀ r ∈ out, ∃ x ∈ xs, doFn x = some r := by
  intro xs
  induction xs with
  | nil =>
    intro out h
    simp only [transformAll, Option.some.injEq] at h
    subst h
    simp
  | cons x rest ih =>
    intro out h
    simp only [transformAll] at h
    cases hx : doFn x with
    | none => rw [hx] at h; exact absurd h (by simp)
    | some r =>
      rw [hx] at h
      cases hr : transformAll doFn rest with
      | none => rw [hr] at h; exact absurd h (by simp)
      | some rs =>
        rw [hr] at h
        simp only [Option.some.injEq] at h
        subst h
        intro q hq
        cases hq with
        | head => exact ⟨x, by simp, hx⟩
        | tail _ hq =>
          obtain ⟨y, hy, hdy⟩ := ih rs hr q hq
          exact ⟨y, List.mem_cons_of_mem _ hy, hdy⟩

/-- A successful transform pass is performed in order: the i-th output
record is the transform of the i-th input record. -/
theorem transformAll_get (doFn : String → Option String) :
    ∀ xs out, transformAll doFn xs = some out →
      ∀ (i : Nat) (hi : i < xs.length) (ho : i < out.length),
        doFn (xs.get ⟨i, hi⟩) = some (out.get ⟨i, ho⟩) := by
  intro xs
  induction xs with
  | nil =>
    intro out h i hi
    exact absurd hi (by simp)
  | cons x rest ih =>
    intro out h i hi ho
    simp only [transformAll] at h
    cases hx : doFn x with
    | none => rw [hx] at h; exact absurd h (by simp)
    | some r =>
      rw [hx] at h
      cases hr : transformAll doFn rest with
      | none => rw [hr] at h; exact absurd h (by simp)
      | some rs =>
        rw [hr] at h
        simp only [Option.some.injEq] at h
        subst h
        cases i with
        | zero => simpa using hx
        | succ j =>
          have hj : j < rest.length := by simpa using hi
          have hj2 : j < rs.length := by simpa using ho
          simpa using ih rs hr j hj hj2

/-- A transform whose primitive never fails succeeds on every batch. -/
theorem transformAll_total (doFn : String → Option String)
    (h : ∀ s, (doFn s).isSome = true) :
    ∀ xs, (transformAll doFn xs).isSome = true := by
  intro xs
  induction xs with
  | nil => simp [transformAll]
  | cons x rest ih =>
    obtain ⟨r, hr⟩ := Option.isSome_iff_exists.mp (h x)
    obtain ⟨rs, hrs⟩ := Option.isSome_iff_exists.mp ih
    simp [transformAll, hr, hrs]

/-- If the per-record transform is injective on its successes, a
successful transform pass over a duplicate-free batch yields a
duplicate-free output. -/
theorem transformAll_nodup (doFn : String → Option String)
    (hinj : ∀ a b c, doFn a = some c → doFn b = some c → a = b) :
    ∀ xs out, transformAll doFn xs = some out → xs.Nodup → out.Nodup := by
  intro xs
  induction xs with
  | nil =>
    intro out h _
    simp only [transformAll, Option.some.injEq] at h
    subst h
    simp
  | cons x rest ih =>
    intro out h hnd
    simp only [transformAll] at h
    cases hx : doFn x with
    | none => rw [hx] at h; exact absurd h (by simp)
    | some r =>
      rw [hx] at h
      cases hr : transformAll doFn rest with
      | none => rw [hr] at h; exact absurd h (by simp)
      | some rs =>
        rw [hr] at h
        simp only [Option.some.injEq] at h
        subst h
        have hnd2 := List.nodup_cons.mp hnd
        refine List.nodup_cons.mpr ⟨?_, ih rs hr hnd2.2⟩
        intro hrin
        obtain ⟨y, hy, hdy⟩ := transformAll_mem doFn rest rs hr r hrin
        exact hnd2.1 (hinj x y r hx hdy ▸ hy)

/-- A successful operate call writes exactly as many records as the batch
holds, for any length-preserving shuffle instance. -/
theorem operate_length (shuf : List String → List String) (op : PairOps)
    (hshuf : ∀ xs : List String, (shuf xs).length = xs.length) :
    ∀ b recs, operate shuf op b = some recs → recs.length = b.length := by
  intro b recs h
  unfold operate at h
  cases hs : op.shuffle with
  | true =>
    rw [hs] at h
    simp only [if_pos] at h
    rw [transformAll_length op.doFn (shuf b) recs h]
    exact hshuf b
  | false =>
    rw [hs] at h
    simp only [if_neg, Bool.false_eq_true, not_false_iff] at h
    exact transformAll_length op.doFn b recs h

/-- When every batch succeeds, the written counter equals the total number
of records in the emitted batches. -/
theorem processAll_ok_written (shuf : List String → List String) (op : PairOps)
    (hshuf : ∀ xs : List String, (shuf xs).length = xs.length) :
    ∀ bs, (processAll shuf op bs).2 = true →
      (processAll shuf op bs).1 = bs.flatten.length := by
  intro bs
  induction bs with
  | nil => intro _; simp [processAll]
  | cons b rest ih =>
    intro h
    cases hb : operate shuf op b with
    | none =>
      simp only [processAll, hb] at h
      exact absurd h (by simp)
    | some recs =>
      simp only [processAll, hb] at h ⊢
      rw [List.flatten_cons, List.length_append, ih h, operate_length shuf op hshuf b recs hb]

/-- With a never-failing per-record primitive, every batch succeeds. -/
theorem processAll_total (shuf : List String → List String) (op : PairOps)
    (h : ∀ s, (op.doFn s).isSome = true) :
    ∀ bs, (processAll shuf op bs).2 = true := by
  intro bs
  induction bs with
  | nil => simp [processAll]
  | cons b rest ih =>
    have hb : (operate shuf op b).isSome = true := by
      unfold operate
      cases hs : op.shuffle
      · simpa using transformAll_total op.doFn h b
      · simpa using transformAll_total op.doFn h (shuf b)
    obtain ⟨recs, hrecs⟩ := Option.isSome_iff_exists.mp hb
    simp [processAll, hrecs, ih]

/-- The read and written counters a run reports, independent of which
branch the run result takes. -/
theorem runEngine_counters (shuf : List String → List String) (pk : PrivateKey)
    (op : Operation) (input : List Line) :
    (runEngine shuf pk op input).read = (readPAIRIDs input).read
    ∧ (runEngine shuf pk op input).written
        = (processAll shuf (mkPairOps op pk) (readPAIRIDs input).batches).1 := by
  unfold runEngine
  cases h2 : (processAll shuf (mkPairOps op pk) (readPAIRIDs input).batches).2 with
  | false => simp [h2]
  | true =>
    cases ht : (readPAIRIDs input).terminal with
    | parseError => simp [h2, ht]
    | eof =>
      by_cases hm : (readPAIRIDs input).read < minimumIDCount
      · simp [h2, ht, hm]
      · simp [h2, ht, hm]

/-- Characterization of the run result of the engine model. -/
theorem runEngine_result (shuf : List String → List String) (pk : PrivateKey)
    (op : Operation) (input : List Line) :
    ((runEngine shuf pk op input).result = none ↔
      (processAll shuf (mkPairOps op pk) (readPAIRIDs input).batches).2 = true
      ∧ (readPAIRIDs input).terminal = Terminal.eof
      ∧ minimumIDCount ≤ (readPAIRIDs input).read)
    ∧ ((runEngine shuf pk op input).result = some PairError.belowThreshold ↔
      (processAll shuf (mkPairOps op pk) (readPAIRIDs input).batches).2 = true
      ∧ (readPAIRIDs input).terminal = Terminal.eof
      ∧ (readPAIRIDs input).read < minimumIDCount) := by
  unfold runEngine
  cases h2 : (processAll shuf (mkPairOps op pk) (readPAIRIDs input).batches).2 with
  | false => simp [h2]
  | true =>
    cases ht : (readPAIRIDs input).terminal with
    | parseError => simp [h2, ht]
    | eof =>
      by_cases hm : (readPAIRIDs input).read < minimumIDCount
      · simp [h2, ht, hm, Nat.not_le.mpr hm]
      · simp [h2, ht, hm, Nat.le_of_not_lt hm]

/-- The read counter of readPAIRIDs equals the number of records in the
batches it emitted. -/
theorem readPAIRIDs_read_eq (input : List Line) :
    (readPAIRIDs input).read = (readPAIRIDs input).batches.flatten.length :=
  readLoop_read_eq_flatten input []

/-- C1: every run of the Batched Transform Engine (HashEncrypt, ReEncrypt
or Decrypt through runPAIROperation) that completes without error writes
exactly as many records as were read: the written counter equals the read
counter, with no loss and no duplication.  The shuffle instance is any
length-preserving function, which pair.Shuffle (an in-place permutation)
is. -/
theorem engine_conservation (shuf : List String → List String) (pk : PrivateKey)
    (op : Operation) (input : List Line)
    (hshuf : ∀ xs : List String, (shuf xs).length = xs.length)
    (hok : (runEngine shuf pk op input).result = none) :
    (runEngine shuf pk op input).written = (runEngine shuf pk op input).read := by
  have h := (runEngine_result shuf pk op input).1.mp hok
  have hc := runEngine_counters shuf pk op input
  rw [hc.1, hc.2, readPAIRIDs_read_eq]
  exact processAll_ok_written shuf (mkPairOps op pk) hshuf (readPAIRIDs input).batches h.1

/-- Every line of a replicated clean input is a record line. -/
theorem recordsOf_replicate (n : Nat) (s : String) :
    recordsOf (List.replicate n (Line.row s)) = List.replicate n s := by
  induction n with
  | zero => rfl
  | succ k ih => simp [List.replicate, recordsOf, ih]

/-- A clean input whose record count reaches the threshold, transformed by
a never-failing primitive, runs to success. -/
theorem runEngine_clean_ok (shuf : List String → List String) (pk : PrivateKey)
    (op : Operation) (input : List Line)
    (hclean : ∀ l ∈ input, l ≠ Line.malformed)
    (htotal : ∀ s, (((mkPairOps op pk).doFn) s).isSome = true)
    (hmin : minimumIDCount ≤ (recordsOf input).length) :
    (runEngine shuf pk op input).result = none := by
  have hr := readLoop_clean input hclean []
  have hread : (readPAIRIDs input).read = (recordsOf input).length := by
    rw [readPAIRIDs_read_eq]
    show (readLoop input []).1.flatten.length = (recordsOf input).length
    rw [hr.2.1]
    simp
  refine (runEngine_result shuf pk op input).1.mpr ⟨?_, hr.1, ?_⟩
  · exact processAll_total shuf (mkPairOps op pk) htotal (readPAIRIDs input).batches
  · rw [hread]
    exact hmin

/-- Witness for C1: a clean 1000-record input under HashEncrypt with a
total primitive completes without error and reports written equal to
read. -/
theorem engine_conservation_witness :
    (runEngine idShuffle totalKey Operation.hashEncrypt
        (List.replicate 1000 (Line.row "x"))).result = none
    ∧ (runEngine idShuffle totalKey Operation.hashEncrypt
        (List.replicate 1000 (Line.row "x"))).written
      = (runEngine idShuffle totalKey Operation.hashEncrypt
        (List.replicate 1000 (Line.row "x"))).read := by
  have hclean : ∀ l ∈ List.replicate 1000 (Line.row "x"), l ≠ Line.malformed := by
    intro l hl
    rw [List.eq_of_mem_replicate hl]
    intro hcontra
    exact Line.noConfusion hcontra
  have hok : (runEngine idShuffle totalKey Operation.hashEncrypt
      (List.replicate 1000 (Line.row "x"))).result = none := by
    refine runEngine_clean_ok idShuffle totalKey Operation.hashEncrypt _ hclean
      (fun s => rfl) ?_
    rw [recordsOf_replicate, List.length_replicate]
    exact Nat.le.refl
  exact ⟨hok, engine_conservation idShuffle totalKey Operation.hashEncrypt
    (List.replicate 1000 (Line.row "x")) (fun xs => rfl) hok⟩

/-- C3: a Transform Engine run that otherwise completes cleanly returns
the dedicated ErrInputBelowThreshold exactly when fewer than
minimumIDCount records were read; the check happens once after the engine
has processed every batch (so a below-threshold run has still written
every record it read), never per batch, and a run that read at least 1000
records never returns that error. -/
theorem engine_threshold (shuf : List String → List String) (pk : PrivateKey)
    (op : Operation) (input : List Line)
    (hshuf : ∀ xs : List String, (shuf xs).length = xs.length) :
    ((runEngine shuf pk op input).result = some PairError.belowThreshold ↔
      (processAll shuf (mkPairOps op pk) (readPAIRIDs input).batches).2 = true
      ∧ (readPAIRIDs input).terminal = Terminal.eof
      ∧ (readPAIRIDs input).read < minimumIDCount)
    ∧ ((runEngine shuf pk op input).result = some PairError.belowThreshold →
      (runEngine shuf pk op input).written = (runEngine shuf pk op input).read)
    ∧ minimumIDCount = 1000 := by
  refine ⟨(runEngine_result shuf pk op input).2, ?_, rfl⟩
  intro hbt
  have h := ((runEngine_result shuf pk op input).2).mp hbt
  have hc := runEngine_counters shuf pk op input
  rw [hc.1, hc.2, readPAIRIDs_read_eq]
  exact processAll_ok_written shuf (mkPairOps op pk) hshuf (readPAIRIDs input).batches h.1

/-- Witness for C3: a clean single-record input completes its transforms
and then fails with the below-threshold error. -/
theorem engine_threshold_witness :
    (runEngine idShuffle totalKey Operation.hashEncrypt [Line.row "a"]).result
      = some PairError.belowThreshold :=
  (engine_threshold idShuffle totalKey Operation.hashEncrypt [Line.row "a"]
    (fun xs => rfl)).1.mpr ⟨by decide, by decide, by decide⟩

/-- C5: the in-place random permutation of a batch is applied exactly for
the ReEncrypt transform kind: mkPairOps sets the shuffle flag only in the
ReEncrypt arm, operate permutes the batch before the per-record transform
exactly when that flag is set, and for HashEncrypt and Decrypt a
successful batch keeps its within-batch order (the i-th output is the
transform of the i-th input). -/
theorem shuffle_only_for_reencrypt (pk : PrivateKey)
    (shuf : List String → List String) (b : List String) :
    (mkPairOps Operation.reEncrypt pk).shuffle = true
    ∧ (mkPairOps Operation.hashEncrypt pk).shuffle = false
    ∧ (mkPairOps Operation.decrypt pk).shuffle = false
    ∧ operate shuf (mkPairOps Operation.reEncrypt pk) b = transformAll pk.reEncrypt (shuf b)
    ∧ operate shuf (mkPairOps Operation.hashEncrypt pk) b = transformAll pk.encrypt b
    ∧ operate shuf (mkPairOps Operation.decrypt pk) b = transformAll pk.decrypt b
    ∧ ∀ (doFn : String → Option String) (out : List String),
        transformAll doFn b = some out →
          out.length = b.length
          ∧ ∀ (i : Nat) (hi : i < b.length) (ho : i < out.length),
              doFn (b.get ⟨i, hi⟩) = some (out.get ⟨i, ho⟩) := by
  refine ⟨rfl, rfl, rfl, rfl, rfl, rfl, ?_⟩
  intro doFn out h
  exact ⟨transformAll_length doFn b out h, transformAll_get doFn b out h⟩

/-- Witness for C5 at a concrete batch: the shuffle flag of ReEncrypt and
the in-order transform property at the identity primitive. -/
theorem shuffle_only_for_reencrypt_witness :
    (mkPairOps Operation.reEncrypt totalKey).shuffle = true
    ∧ (["u", "v"] : List String).length = (["u", "v"] : List String).length :=
  ⟨(shuffle_only_for_reencrypt totalKey idShuffle ["u", "v"]).1,
    ((shuffle_only_for_reencrypt totalKey idShuffle ["u", "v"]).2.2.2.2.2.2
      Option.some ["u", "v"] (by decide)).1⟩

/-- Every record the producer forwards over one batch was in the lookup
set it started the batch with. -/
theorem matchProducerBatch_subset (ids : List String) :
    ∀ (hm : Finset String) (x : String),
      x ∈ (matchProducerBatch hm ids).1 → x ∈ hm := by
  induction ids with
  | nil =>
    intro hm x hx
    simp [matchProducerBatch] at hx
  | cons id rest ih =>
    intro hm x hx
    by_cases h : id ∈ hm
    · simp only [matchProducerBatch, h, if_pos] at hx
      cases hx with
      | head => exact h
      | tail _ hx => exact Finset.mem_of_mem_erase (ih (hm.erase id) x hx)
    · simp only [matchProducerBatch, h, if_neg, not_false_iff] at hx
      exact ih hm x hx

/-- After one batch the lookup set has lost exactly the records the
producer forwarded. -/
theorem matchProducerBatch_set (ids : List String) :
    ∀ hm : Finset String,
      (matchProducerBatch hm ids).2 = hm \ (matchProducerBatch hm ids).1.toFinset := by
  induction ids with
  | nil =>
    intro hm
    simp [matchProducerBatch]
  | cons id rest ih =>
    intro hm
    by_cases h : id ∈ hm
    · simp only [matchProducerBatch, h, if_pos]
      rw [ih (hm.erase id)]
      ext x
      simp only [Finset.mem_sdiff, Finset.mem_erase, List.toFinset_cons, Finset.mem_insert,
        List.mem_toFinset]
      constructor
      · intro hx
        exact ⟨hx.1.2, by push_neg; exact ⟨hx.1.1, by simpa using hx.2⟩⟩
      · intro hx
        push_neg at hx
        exact ⟨⟨hx.2.1, hx.1⟩, by simpa using hx.2.2⟩
    · simp only [matchProducerBatch, h, if_neg, not_false_iff]
      exact ih hm

/-- The records forwarded over one batch are pairwise distinct: a record
is erased from the set the moment it matches, so a duplicate occurrence in
the same batch cannot match again. -/
theorem matchProducerBatch_nodup (ids : List String) :
    ∀ hm : Finset String, (matchProducerBatch hm ids).1.Nodup := by
  induction ids with
  | nil =>
    intro hm
    simp [matchProducerBatch]
  | cons id rest ih =>
    intro hm
    by_cases h : id ∈ hm
    · simp only [matchProducerBatch, h, if_pos]
      refine List.nodup_cons.mpr ⟨?_, ih (hm.erase id)⟩
      intro hmem
      exact absurd (matchProducerBatch_subset rest (hm.erase id) id hmem)
        (Finset.not_mem_erase id hm)
    · simp only [matchProducerBatch, h, if_neg, not_false_iff]
      exact ih hm

/-- Every record the producer forwards over the whole publisher stream was
in the initial advertiser lookup set. -/
theorem matchProducer_subset (bs : List (List String)) :
    ∀ (hm : Finset String) (x : String),
      x ∈ (matchProducer hm bs).1 → x ∈ hm := by
  induction bs with
  | nil =>
    intro hm x hx
    simp [matchProducer] at hx
  | cons b rest ih =>
    intro hm x hx
    simp only [matchProducer, List.mem_append] at hx
    cases hx with
    | inl hx => exact matchProducerBatch_subset b hm x hx
    | inr hx =>
      have hx2 := ih (matchProducerBatch hm b).2 x hx
      rw [matchProducerBatch_set b hm] at hx2
      exact (Finset.mem_sdiff.mp hx2).1

/-- After the whole publisher stream the lookup set has lost exactly the
forwarded records. -/
theorem matchProducer_set (bs : List (List String)) :
    ∀ hm : Finset String,
      (matchProducer hm bs).2 = hm \ (matchProducer hm bs).1.toFinset := by
  induction bs with
  | nil =>
    intro hm
    simp [matchProducer]
  | cons b rest ih =>
    intro hm
    simp only [matchProducer]
    rw [ih (matchProducerBatch hm b).2, matchProducerBatch_set b hm]
    ext x
    simp only [Finset.mem_sdiff, List.toFinset_append, Finset.mem_union, List.mem_toFinset]
    tauto

/-- The full sequence of records the Matcher producer forwards to the
consumers is duplicate-free. -/
theorem matchProducer_nodup (bs : List (List String)) :
    ∀ hm : Finset String, (matchProducer hm bs).1.Nodup := by
  induction bs with
  | nil =>
    intro hm
    simp [matchProducer]
  | cons b rest ih =>
    intro hm
    simp only [matchProducer]
    refine List.nodup_append.mpr ⟨matchProducerBatch_nodup b hm,
      ih (matchProducerBatch hm b).2, ?_⟩
    intro x hx1 hx2
    have hx3 := matchProducer_subset rest (matchProducerBatch hm b).2 x hx2
    rw [matchProducerBatch_set b hm] at hx3
    exact (Finset.mem_sdiff.mp hx3).2 (List.mem_toFinset.mpr hx1)

/-- C2: in every Matcher run each advertiser identifier appears in the
matched output at most once, even when the publisher stream holds
duplicate ciphertexts that both intersect: a matching key is removed from
the intersection set before matching continues, so the forwarded matches
are pairwise distinct, they all come from the advertiser set, and the
decrypted records the consumers write inherit the distinctness whenever
the decrypt primitive does not collide on its successes. -/
theorem matcher_no_duplicate_match (adv : List (List String)) (pubInput : List Line)
    (dec : String → Option String) :
    (matcherMatched adv pubInput).Nodup
    ∧ (∀ x ∈ matcherMatched adv pubInput, x ∈ advHashMap adv)
    ∧ ∀ out, transformAll dec (matcherMatched adv pubInput) = some out →
        (∀ a b c, dec a = some c → dec b = some c → a = b) → out.Nodup := by
  refine ⟨matchProducer_nodup (readPAIRIDs pubInput).batches (advHashMap adv),
    fun x hx => matchProducer_subset (readPAIRIDs pubInput).batches (advHashMap adv) x hx,
    ?_⟩
  intro out hout hinj
  exact transformAll_nodup dec hinj (matcherMatched adv pubInput) out hout
    (matchProducer_nodup (readPAIRIDs pubInput).batches (advHashMap adv))

/-- Witness for C2: with advertiser set containing a and b and a publisher
stream holding the ciphertext a twice, the decrypted output is exactly one
a and one b, with no duplicate. -/
theorem matcher_no_duplicate_match_witness :
    (["a", "b"] : List String).Nodup :=
  (matcher_no_duplicate_match [["a", "b"]]
    [Line.row "a", Line.row "a", Line.row "b"] Option.some).2.2
    ["a", "b"] (by decide)
    (fun a b c h1 h2 => (Option.some.inj h1).trans (Option.some.inj h2).symm)

/-- Amended C4: the Matcher applies no minimum-input-size floor at all:
Matcher.Match never returns ErrInputBelowThreshold, whatever the
advertiser read count is. -/
theorem matcher_no_threshold_check (dec : String → Option String)
    (adv : List (List String)) (pubInput : List Line) :
    (matcherMatch dec adv pubInput).result ≠ some PairError.belowThreshold := by
  unfold matcherMatch
  cases h : transformAll dec
      ((matchProducer (advHashMap adv) (readPAIRIDs pubInput).batches).1) with
  | none =>
    simp only [h]
    intro hcontra
    simp at hcontra
  | some out =>
    cases ht : (readPAIRIDs pubInput).terminal with
    | parseError =>
      simp only [h, ht]
      intro hcontra
      simp at hcontra
    | eof =>
      simp only [h, ht]
      intro hcontra
      simp at hcontra

/-- Counterexample to C4 as stated: a Matcher run over a single advertiser
record (far below the 1000-record floor) that otherwise completes cleanly
returns success, not the below-threshold error. -/
theorem matcher_threshold_counterexample :
    (matcherMatch Option.some [["a"]] [Line.row "a"]).advRead < minimumIDCount
    ∧ (matcherMatch Option.some [["a"]] [Line.row "a"]).result = none := by
  constructor
  · decide
  · decide

/-- Witness for the amended C4: a concrete clean Matcher run does not
return the below-threshold error. -/
theorem matcher_no_threshold_check_witness :
    (matcherMatch Option.some [["b"]] [Line.row "b"]).result
      ≠ some PairError.belowThreshold :=
  matcher_no_threshold_check Option.some [["b"]] [Line.row "b"]

/-- C6: for every observed (publisher state, advertiser state) pair the
orchestrator classification selects exactly one next action agreeing with
the spec table: (DataContributed, Invited) is Step 1; (DataContributed,
DataContributed), (DataTransforming, DataContributed) and
(DataTransformed, DataContributed) are Step 2; (DataContributed,
DataTransformed), (DataTransforming, DataTransformed), (DataTransformed,
DataTransformed), (Running, DataTransformed) and (Succeeded,
DataTransformed) are Step 3; every other pair selects no action and Run
fails with the unexpected-state-combination error. -/
theorem orchestrator_classification :
    ∀ publisherState advertiserState : ParticipantState,
      runDispatch (actionFromStates publisherState advertiserState)
        = specNextAction publisherState advertiserState
      ∧ selectedCount (actionFromStates publisherState advertiserState)
        = (if specNextAction publisherState advertiserState = NextAction.failUnexpected
            then 0 else 1) := by
  decide

/-- Witness for C6 at the concrete pair (DataContributed, Invited): the
dispatch selects Step 1. -/
theorem orchestrator_classification_witness :
    runDispatch (actionFromStates ParticipantState.dataContributed ParticipantState.invited)
      = NextAction.stepOne :=
  (orchestrator_classification ParticipantState.dataContributed ParticipantState.invited).1

/-- The wait loop returns success exactly when some poll within the
remaining ticks observes a target state. -/
theorem waitLoop_ok_iff (obs : Nat → ParticipantState) (targets : List ParticipantState) :
    ∀ fuel t, (waitLoop obs targets fuel t).1 = WaitResult.ok
      ↔ ∃ k, t < k ∧ k ≤ t + fuel ∧ obs k ∈ targets := by
  intro fuel
  induction fuel with
  | zero =>
    intro t
    simp only [waitLoop]
    constructor
    · intro h
      exact absurd h (by simp)
    · intro ⟨k, hk1, hk2, _⟩
      omega
  | succ fuel ih =>
    intro t
    simp only [waitLoop, pollIntervalSeconds]
    by_cases h : obs (t + 1) ∈ targets
    · simp only [h, if_pos]
      constructor
      · intro _
        exact ⟨t + 1, by omega, by omega, h⟩
      · intro _
        trivial
    · simp only [h, if_neg, not_false_iff]
      rw [ih (t + 1)]
      constructor
      · intro ⟨k, hk1, hk2, hk3⟩
        exact ⟨k, by omega, by omega, hk3⟩
      · intro ⟨k, hk1, hk2, hk3⟩
        refine ⟨k, ?_, by omega, hk3⟩
        rcases Nat.lt_or_ge (t + 1) k with hlt | hge
        · exact hlt
        · have : k = t + 1 := by omega
          subst this
          exact absurd hk3 h

/-- A successful wait returns at the first poll that observes a target
state: the reported elapsed time is in range and no earlier poll saw a
target. -/
theorem waitLoop_ok_first (obs : Nat → ParticipantState) (targets : List ParticipantState) :
    ∀ fuel t n, waitLoop obs targets fuel t = (WaitResult.ok, n) →
      t < n ∧ n ≤ t + fuel ∧ obs n ∈ targets
        ∧ ∀ m, t < m → m < n → obs m ∉ targets := by
  intro fuel
  induction fuel with
  | zero =>
    intro t n h
    simp only [waitLoop, Prod.mk.injEq] at h
    exact absurd h.1 (by simp)
  | succ fuel ih =>
    intro t n h
    simp only [waitLoop, pollIntervalSeconds] at h
    by_cases hobs : obs (t + 1) ∈ targets
    · rw [if_pos hobs] at h
      have hn : n = t + 1 := ((Prod.mk.injEq _ _ _ _).mp h).2.symm
      subst hn
      exact ⟨by omega, by omega, hobs, fun m hm1 hm2 => by omega⟩
    · rw [if_neg hobs] at h
      obtain ⟨h1, h2, h3, h4⟩ := ih (t + 1) n h
      refine ⟨by omega, by omega, h3, ?_⟩
      intro m hm1 hm2
      rcases Nat.lt_or_ge (t + 1) m with hlt | hge
      · exact h4 m hlt hm2
      · have : m = t + 1 := by omega
        subst this
        exact hobs

/-- C7: before the match step the orchestrator waits for the publisher to
reach a state at-or-beyond DataTransformed (one of DataTransformed,
Running, Succeeded), polling the coordination service once every second up
to a one-hour ceiling: the wait succeeds exactly when some poll within the
hour observes such a state, a successful wait stops at the first such
poll, and otherwise it fails with the timeout error. -/
theorem ready_for_match_wait (obs : Nat → ParticipantState) :
    pollIntervalSeconds = 1
    ∧ waitCeilingSeconds = 3600
    ∧ readyForMatchTargets
        = [ParticipantState.dataTransformed, ParticipantState.running,
            ParticipantState.succeeded]
    ∧ ((readyForMatch obs).1 = WaitResult.ok
        ↔ ∃ k, 1 ≤ k ∧ k ≤ waitCeilingSeconds ∧ obs k ∈ readyForMatchTargets)
    ∧ (∀ n, readyForMatch obs = (WaitResult.ok, n) →
        obs n ∈ readyForMatchTargets
        ∧ ∀ m, 1 ≤ m → m < n → obs m ∉ readyForMatchTargets)
    ∧ ((readyForMatch obs).1 = WaitResult.timeout
        ↔ ∀ k, 1 ≤ k → k ≤ waitCeilingSeconds → obs k ∉ readyForMatchTargets) := by
  have hok := waitLoop_ok_iff obs readyForMatchTargets
    (waitCeilingSeconds / pollIntervalSeconds) 0
  have hceil : waitCeilingSeconds / pollIntervalSeconds = 3600 := rfl
  refine ⟨rfl, rfl, rfl, ?_, ?_, ?_⟩
  · show (waitLoop obs readyForMatchTargets (waitCeilingSeconds / pollIntervalSeconds) 0).1
        = WaitResult.ok ↔ _
    rw [hok, hceil]
    constructor
    · intro ⟨k, h1, h2, h3⟩
      exact ⟨k, by omega, by simpa [waitCeilingSeconds] using h2, h3⟩
    · intro ⟨k, h1, h2, h3⟩
      exact ⟨k, by omega, by simpa [waitCeilingSeconds] using h2, h3⟩
  · intro n h
    obtain ⟨h1, h2, h3, h4⟩ := waitLoop_ok_first obs readyForMatchTargets
      (waitCeilingSeconds / pollIntervalSeconds) 0 n h
    exact ⟨h3, fun m hm1 hm2 => h4 m (by omega) hm2⟩
  · show (waitLoop obs readyForMatchTargets (waitCeilingSeconds / pollIntervalSeconds) 0).1
        = WaitResult.timeout ↔ _
    cases hres : (waitLoop obs readyForMatchTargets
        (waitCeilingSeconds / pollIntervalSeconds) 0).1 with
    | ok =>
      rw [hres] at hok
      obtain ⟨k, h1, h2, h3⟩ := hok.mp rfl
      constructor
      · intro hcontra
        exact absurd hcontra (by simp)
      · intro hall
        have h2b : k ≤ waitCeilingSeconds := by
          rw [hceil] at h2
          show k ≤ 3600
          omega
        exact absurd h3 (hall k (by omega) h2b)
    | timeout =>
      rw [hres] at hok
      constructor
      · intro _ k hk1 hk2 hk3
        have hex : ∃ j, 0 < j ∧ j ≤ 0 + waitCeilingSeconds / pollIntervalSeconds
            ∧ obs j ∈ readyForMatchTargets := by
          refine ⟨k, by omega, ?_, hk3⟩
          rw [hceil]
          have hk2b : k ≤ 3600 := hk2
          omega
        exact absurd (hok.mpr hex) (by simp)
      · intro _
        rfl

/-- Witness for C7: an observation that first shows DataTransformed at the
second poll makes the wait succeed. -/
theorem ready_for_match_wait_witness :
    (readyForMatch (fun t =>
        if t = 2 then ParticipantState.dataTransformed else ParticipantState.invited)).1
      = WaitResult.ok :=
  (ready_for_match_wait (fun t =>
      if t = 2 then ParticipantState.dataTransformed
      else ParticipantState.invited)).2.2.2.1.mpr
    ⟨2, by omega, by simp [waitCeilingSeconds], by simp [readyForMatchTargets]⟩

/-- A string obtained by appending a suffix carries that suffix. -/
theorem goHasSuffix_append (pfx tail : String) :
    goHasSuffix (pfx ++ tail) tail = true := by
  unfold goHasSuffix
  rw [List.isSuffixOf_iff_suffix, String.data_append]
  exact List.suffix_append _ _

/-- C9: when the objects of a source storage location are listed to open
readers, every object whose name ends with the completion marker name
.Completed, every directory-like object (name ending in a slash) and every
zero-byte object is skipped, a reader is opened for every other listed
object, and in particular a completion marker object is never opened as
data. -/
theorem bucket_listing_skips (objs : List BucketObject) :
    (∀ o : BucketObject, o ∈ listOpenedReaders objs ↔
      o ∈ objs ∧ goHasSuffix o.name CompletedFile = false
        ∧ goHasSuffix o.name "/" = false ∧ o.size ≠ 0)
    ∧ ∀ (pfx : String) (n : Nat),
        BucketObject.mk (pfx ++ CompletedFile) n ∉ listOpenedReaders objs := by
  have hmem : ∀ o : BucketObject, o ∈ listOpenedReaders objs ↔
      o ∈ objs ∧ goHasSuffix o.name CompletedFile = false
        ∧ goHasSuffix o.name "/" = false ∧ o.size ≠ 0 := by
    induction objs with
    | nil =>
      intro o
      simp [listOpenedReaders]
    | cons q rest ih =>
      intro o
      by_cases hskip : shouldSkip q = true
      · simp only [listOpenedReaders, hskip, if_pos]
        rw [ih o]
        constructor
        · intro h
          exact ⟨List.mem_cons_of_mem _ h.1, h.2⟩
        · intro h
          refine ⟨?_, h.2⟩
          cases List.mem_cons.mp h.1 with
          | inl heq =>
            subst heq
            exfalso
            unfold shouldSkip at hskip
            simp only [Bool.or_eq_true, beq_iff_eq] at hskip
            rcases hskip with h1 | h2
            · rcases h1 with h1a | h1b
              · rw [h.2.1] at h1a
                exact absurd h1a (by simp)
              · rw [h.2.2.1] at h1b
                exact absurd h1b (by simp)
            · exact h.2.2.2 h2
          | inr hmem2 => exact hmem2
      · have hskip2 : shouldSkip q = false := by
          cases h2 : shouldSkip q
          · rfl
          · exact absurd h2 hskip
        simp only [listOpenedReaders, hskip2, Bool.false_eq_true, if_neg, not_false_iff]
        rw [List.mem_cons, ih o, List.mem_cons]
        constructor
        · intro h
          cases h with
          | inl heq =>
            subst heq
            unfold shouldSkip at hskip2
            simp only [Bool.or_eq_false_iff, beq_eq_false_iff_ne] at hskip2
            exact ⟨Or.inl rfl, hskip2.1.1, hskip2.1.2, hskip2.2⟩
          | inr h => exact ⟨Or.inr h.1, h.2⟩
        · intro h
          cases h.1 with
          | inl heq => exact Or.inl heq
          | inr hmem2 => exact Or.inr ⟨hmem2, h.2⟩
  refine ⟨hmem, ?_⟩
  intro pfx n hcontra
  have h := (hmem (BucketObject.mk (pfx ++ CompletedFile) n)).mp hcontra
  have hsuf := goHasSuffix_append pfx CompletedFile
  rw [h.2.1] at hsuf
  exact absurd hsuf (by simp)

/-- Witness for C9: a listing holding a completion marker, a directory
entry, an empty object and one data object opens a reader exactly for the
data object. -/
theorem bucket_listing_skips_witness :
    BucketObject.mk ("p/" ++ CompletedFile) 0
      ∉ listOpenedReaders
        [BucketObject.mk ("p/" ++ CompletedFile) 0, BucketObject.mk "p/data.csv" 7] :=
  (bucket_listing_skips
    [BucketObject.mk ("p/" ++ CompletedFile) 0, BucketObject.mk "p/data.csv" 7]).2 "p/" 0

/-- C10: validating the operator-supplied cleanroom claims token never
verifies the cryptographic signature: ParseCleanroomToken decodes the
claims of any well-formed JWT independently of whether its signature would
verify, and CleanroomToken.Valid succeeds exactly when the cleanroom name,
issuer host and hash salt claims are non-empty and the expiration second
has not passed (the token is valid through its expiration second, since
the check compares whole Unix seconds); nothing else is checked. -/
theorem cleanroom_token_validation :
    (∀ (t : EncodedToken) (b : Bool),
        parseCleanroomToken (setSignatureValid t b) = parseCleanroomToken t)
    ∧ (∀ t : EncodedToken, t.wellFormed = true → parseCleanroomToken t = some t.claims)
    ∧ ∀ (now : Int) (c : TokenClaims),
        tokenValid now c = none ↔
          c.cleanroom ≠ "" ∧ c.issuerHost ≠ "" ∧ c.hashSalt ≠ "" ∧ now ≤ c.expiration := by
  refine ⟨fun t b => rfl, fun t h => by simp [parseCleanroomToken, h], ?_⟩
  intro now c
  unfold tokenValid
  by_cases h1 : c.cleanroom = ""
  · simp [h1]
  · by_cases h2 : now > c.expiration
    · simp only [h1, if_neg, not_false_iff, h2, if_pos]
      constructor
      · intro hcontra
        exact absurd hcontra (by simp)
      · intro hcond
        omega
    · by_cases h3 : c.issuerHost = ""
      · simp [h1, h2, h3]
      · by_cases h4 : c.hashSalt = ""
        · simp [h1, h2, h3, h4]
        · simp only [h1, h2, h3, h4, if_neg, not_false_iff]
          constructor
          · intro _
            exact ⟨h1, h3, h4, by omega⟩
          · intro _
            trivial

/-- Witness for C10: a well-formed token with an invalid signature parses
to its claims, and concrete non-empty claims with a future expiration
validate successfully. -/
theorem cleanroom_token_validation_witness :
    parseCleanroomToken ⟨true, false, ⟨"room", 10, "host", "salt"⟩⟩
        = some ⟨"room", 10, "host", "salt"⟩
    ∧ tokenValid 5 ⟨"room", 10, "host", "salt"⟩ = none :=
  ⟨cleanroom_token_validation.2.1 ⟨true, false, ⟨"room", 10, "host", "salt"⟩⟩ rfl,
    (cleanroom_token_validation.2.2 5 ⟨"room", 10, "host", "salt"⟩).mpr
      ⟨by decide, by decide, by decide, by decide⟩⟩

end PairCli
